import Mathlib

/-!
Verification of the grid state machine of a tile-matching puzzle engine
(src/script.js): tile representation, adjacency and swap validation, match
detection, cascade resolution, board seeding and end-of-session evaluation.

The grid is modelled as a total function from coordinates to an optional tile
type: `some t` is a concrete tile type (an integer in `[0, TYPES)`), `none` is
the null slot that appears mid-cascade.  Randomness is modelled by a stream
`σ : Nat → Nat` together with a running position; a single draw of
`Math.random()*n` is `σ pos % n`, which ranges over exactly the values the
source can produce.  Loops whose termination is not structural (the cascade
loop and the initial-match sweep) take an explicit fuel argument and return
`Option`; `none` means the fuel ran out before the loop exited.
-/

namespace JewelsCrusher

/-- Configuration constants from the top of src/script.js. -/
def COLS : Nat := 8

/-- Number of rows of the board. -/
def ROWS : Nat := 8

/-- Number of different tile types. -/
def TYPES : Nat := 6

/-- Starting move budget. -/
def STARTING_MOVES : Nat := 30

/-- Minimum tiles in a match. -/
def MATCH_MIN : Nat := 3

/-- A grid coordinate: row then column. -/
abbrev Coord := Nat × Nat

/-- The grid: each slot holds either a concrete tile type or null. -/
abbrev Grid := Coord → Option Nat

/-- Pointwise update of one slot of the grid. -/
def setG (g : Grid) (p : Coord) (v : Option Nat) : Grid :=
  fun q => if q = p then v else g q

/-- Bounds check, `inBounds` in the source (`r>=0` and `c>=0` are implicit
in `Nat`). -/
def inBounds (r c : Nat) : Bool := decide (r < ROWS) && decide (c < COLS)

/-- One draw from the random stream: `Math.floor(Math.random()*n)`. -/
def rand (σ : Nat → Nat) (pos n : Nat) : Nat := σ pos % n

/-- Adjacency test of the source, isAdjacent: Manhattan distance exactly 1. -/
def isAdjacent (r1 c1 r2 c2 : Nat) : Bool :=
  ((r1 : Int) - r2).natAbs + ((c1 : Int) - c2).natAbs == 1

/-- The swap of the source, swapData: exchange the types stored at two slots
(the DOM bookkeeping it also performs is presentation glue). -/
def swapData (g : Grid) (p q : Coord) : Grid :=
  setG (setG g p (g q)) q (g p)

/-- One iteration of the run-scanning loop of `findAllMatches`, parametrised
by the line being scanned: `f` is the sequence of types along the line,
`emb` embeds a line index into a grid coordinate, `proj` recovers the line
index of a coordinate (the source reads `run[0].c` in the horizontal scan
and `run[0].r` in the vertical one), and `L` is the line length.  The state
is the current run together with the matches emitted so far. -/
def lineStep (f : Nat → Option Nat) (emb : Nat → Coord) (proj : Coord → Nat)
    (L : Nat) (s : List Coord × List (List Coord)) (i : Nat) :
    List Coord × List (List Coord) :=
  if i < L ∧ f i = f (proj (s.1.headD (emb 0))) then
    (s.1 ++ [emb i], s.2)
  else
    ([emb i], if MATCH_MIN ≤ s.1.length then s.2 ++ [s.1] else s.2)

/-- The horizontal scan of row `r` in `findAllMatches`: the loop body is
`lineStep` instantiated with `f := fun c => g (r, c)`, `emb := fun c => (r, c)`
and `proj := Prod.snd`, so that the guard unfolds to exactly the guard of the source,
`c < COLS && grid[r][c].type === grid[r][run[0].c].type`. -/
def hScanRow (g : Grid) (r : Nat) : List (List Coord) :=
  (((List.range COLS).map (· + 1)).foldl
    (lineStep (fun c => g (r, c)) (fun c => (r, c)) Prod.snd COLS)
    ([(r, 0)], [])).2

/-- The vertical scan of column `c` in `findAllMatches`. -/
def vScanCol (g : Grid) (c : Nat) : List (List Coord) :=
  (((List.range ROWS).map (· + 1)).foldl
    (lineStep (fun r => g (r, c)) (fun r => (r, c)) Prod.fst ROWS)
    ([(0, c)], [])).2

/-- Match detection of the source, findAllMatches: the shared matches array receives the
horizontal runs row by row, then the vertical runs column by column. -/
def findAllMatches (g : Grid) : List (List Coord) :=
  (List.range COLS).foldl (fun ms c => ms ++ vScanCol g c)
    ((List.range ROWS).foldl (fun ms r => ms ++ hScanRow g r) [])

/-- Insertion into the removal set: a JS `Set` keyed by the coordinate string
keeps the first occurrence and drops duplicates. -/
def insertCoord (s : List Coord) (p : Coord) : List Coord :=
  if p ∈ s then s else s ++ [p]

/-- The de-duplicated union of the coordinates of all runs, built in
`resolveMatches` by `matches.forEach(run => run.forEach(pt => removeSet.add(...)))`. -/
def removeSet (ms : List (List Coord)) : List Coord :=
  ms.foldl (fun s run => run.foldl insertCoord s) []

/-- Body of the per-row loop of `dropTiles` for column `c`: state is the grid
together with the write pointer; a non-null slot is moved down to the write
pointer (and its old slot nulled) unless it is already there. -/
def dropColStep (c : Nat) (s : Grid × Nat) (r : Nat) : Grid × Nat :=
  if (s.1 (r, c)).isSome then
    (if r ≠ s.2 then setG (setG s.1 (s.2, c) (s.1 (r, c))) (r, c) none else s.1,
     s.2 - 1)
  else s

/-- The per-column loop of `dropTiles`: rows are visited from the bottom up,
`dropColAux c s n` processes rows `n-1, n-2, ..., 0`. -/
def dropColAux (c : Nat) (s : Grid × Nat) : Nat → Grid × Nat
  | 0 => s
  | n + 1 => dropColAux c (dropColStep c s n) n

/-- Gravity of the source, dropTiles: for each column, compact non-null types
downward with a write pointer starting at the bottom row. -/
def dropTiles (g : Grid) : Grid :=
  (List.range COLS).foldl (fun h c => (dropColAux c (h, ROWS - 1) ROWS).1) g

/-- The inner loop of `refillTiles` for column `c`: every null slot of the
column receives a fresh random type, advancing the stream position. -/
def refillCol (σ : Nat → Nat) (c : Nat) (s : Grid × Nat) : Grid × Nat :=
  (List.range ROWS).foldl
    (fun t r =>
      match t.1 (r, c) with
      | none => (setG t.1 (r, c) (some (rand σ t.2 TYPES)), t.2 + 1)
      | some _ => t) s

/-- Refill of the source, refillTiles: columns outside, rows inside. -/
def refillTiles (σ : Nat → Nat) (g : Grid) (pos : Nat) : Grid × Nat :=
  (List.range COLS).foldl (fun s c => refillCol σ c s) (g, pos)

/-- The `while(matches.length)` loop of `resolveMatches`, with explicit fuel.
State: grid, current match list, score, removed-tile counter, stream
position.  One iteration: remove the de-duplicated coordinate union, add
10 per removed tile to the score, drop, refill, re-detect. -/
def resolveLoopAux (σ : Nat → Nat) :
    Nat → Grid → List (List Coord) → Nat → Nat → Nat →
    Option (Grid × Nat × Nat × Nat)
  | 0, g, ms, score, total, pos =>
    if ms = [] then some (g, score, total, pos) else none
  | fuel + 1, g, ms, score, total, pos =>
    if ms = [] then some (g, score, total, pos)
    else
      let rs := removeSet ms
      let g1 := rs.foldl (fun h p => setG h p none) g
      let g2 := dropTiles g1
      let gp := refillTiles σ g2 pos
      resolveLoopAux σ fuel gp.1 (findAllMatches gp.1)
        (score + rs.length * 10) (total + rs.length) gp.2

/-- Cascade resolution of the source, resolveMatches: run the cascade loop starting from the
given initial match list with the removed-tile counter at 0; returns the
final grid, score, total removed count and stream position. -/
def resolveMatches (σ : Nat → Nat) (fuel : Nat) (g : Grid)
    (ms : List (List Coord)) (score : Nat) : Option (Grid × Nat × Nat × Nat) :=
  resolveLoopAux σ fuel g ms score 0 0

/-- One fix of the initial-match sweep: the middle element of the run
(`run[Math.floor(run.length/2)]`) is replaced by the next type in cyclic
order (`(kind+1) % TYPES`), reading the current value of the slot. -/
def sweepFix (g : Grid) (run : List Coord) : Grid :=
  let p := run.getD (run.length / 2) (0, 0)
  setG g p (some (((g p).getD 0 + 1) % TYPES))

/-- One sweep iteration of `removeInitialMatches`: the match list is computed
once, then the middle of every run is bumped (mutating the live grid). -/
def sweepStep (g : Grid) (ms : List (List Coord)) : Grid :=
  ms.foldl sweepFix g

/-- Initial-match removal of the source, removeInitialMatches, with explicit fuel for the
`while(matches.length)` loop. -/
def removeInitialMatches : Nat → Grid → Option Grid
  | 0, g => if findAllMatches g = [] then some g else none
  | fuel + 1, g =>
    let ms := findAllMatches g
    if ms = [] then some g else removeInitialMatches fuel (sweepStep g ms)

/-- The left-left rejection pattern of `randomTypeSafe`: the two already
created cells to the left of `(r,c)` both carry type `t`.  (The source also
checks that the tile objects exist; a missing tile is a null slot here.) -/
def leftPairMatches (g : Grid) (r c t : Nat) : Bool :=
  decide (2 ≤ c) && (g (r, c - 1) == some t) && (g (r, c - 2) == some t)

/-- The up-up rejection pattern of `randomTypeSafe`. -/
def upPairMatches (g : Grid) (r c t : Nat) : Bool :=
  decide (2 ≤ r) && (g (r - 1, c) == some t) && (g (r - 2, c) == some t)

/-- A draw is rejected when either pattern matches (the source has two
separate `continue` branches). -/
def rejects (g : Grid) (r c t : Nat) : Bool :=
  leftPairMatches g r c t || upPairMatches g r c t

/-- The resampling loop of `randomTypeSafe`: while the rejection budget
lasts, a draw matching either pattern is rejected and redrawn; once the
budget is exhausted (`tries>15` in the source) the draw is returned
unconditionally. -/
def randomTypeSafeAux (g : Grid) (r c : Nat) (σ : Nat → Nat) :
    Nat → Nat → Nat
  | pos, 0 => rand σ pos TYPES
  | pos, fuel + 1 =>
    let t := rand σ pos TYPES
    if rejects g r c t then
      randomTypeSafeAux g r c σ (pos + 1) fuel
    else t

/-- Safe draw of the source, randomTypeSafe: up to 16 draws may be rejected
(`tries` 0 through 15), the 17th draw is accepted regardless. -/
def randomTypeSafe (g : Grid) (r c : Nat) (σ : Nat → Nat) : Nat :=
  randomTypeSafeAux g r c σ 0 16

/-- Session status, as reported by the overlay: `Won` for the win overlay,
`Lost` for the out-of-moves overlay, `Playing` when no overlay is shown. -/
inductive GameStatus
  | Playing
  | Won
  | Lost
deriving DecidableEq

/-- End conditions of the source, checkEndConditions: win at `score >= 2000` (checked
first), lose at `moves <= 0`, otherwise keep playing. -/
def checkEndConditions (score : Nat) (moves : Int) : GameStatus :=
  if 2000 ≤ score then GameStatus.Won
  else if moves ≤ 0 then GameStatus.Lost
  else GameStatus.Playing

/-- Swap handling of the source, attemptSwap (animation and HUD calls stripped): swap
the two slots, detect; on a match decrement moves and resolve the cascade;
on no match swap back.  Returns the new grid, score and moves. -/
def attemptSwap (g : Grid) (score : Nat) (moves : Int) (r1 c1 r2 c2 : Nat)
    (σ : Nat → Nat) (fuel : Nat) : Option (Grid × Nat × Int) :=
  let g1 := swapData g (r1, c1) (r2, c2)
  let ms := findAllMatches g1
  if ms = [] then some (swapData g1 (r1, c1) (r2, c2), score, moves)
  else
    match resolveMatches σ fuel g1 ms score with
    | some (g2, score2, _, _) => some (g2, score2, moves - 1)
    | none => none

/-- A grid is fully populated when every slot of the board holds a type. -/
def gridFull (g : Grid) : Prop :=
  ∀ r, r < ROWS → ∀ c, c < COLS → (g (r, c)).isSome = true

instance (g : Grid) : Decidable (gridFull g) := by
  unfold gridFull; infer_instance

/-! ### Concrete boards used to witness the theorems -/

/-- A concrete fully populated board with no matches: cell `(r,c)` holds
`(2r + c) % 6`, so no two cells at distance 1 or 2 along a line agree. -/
def gridA : Grid := fun p =>
  if p.1 < 8 ∧ p.2 < 8 then some ((2 * p.1 + p.2) % 6) else none

/-- The constant-zero random stream. -/
def zeroSrc : Nat → Nat := fun _ => 0

/-! ### Basic lemmas about slot updates -/

theorem setG_same (g : Grid) (p : Coord) (v : Option Nat) : setG g p v p = v := by
  simp [setG]

theorem setG_other (g : Grid) (p q : Coord) (v : Option Nat) (h : q ≠ p) :
    setG g p v q = g q := by
  simp [setG, h]

/-- Swapping the same two slots twice restores the grid exactly. -/
theorem swapData_swapData (g : Grid) (p q : Coord) :
    swapData (swapData g p q) p q = g := by
  funext x
  simp only [swapData, setG]
  split_ifs <;> simp_all

/-! ### Claim C1 -/

/-- Claim C1: for every pair of adjacent cells, if swapping their types
yields a grid with no run of length at least MATCH_MIN, then attemptSwap
reverts the swap and, on return, the type of every slot, the score, and the
moves counter are all exactly as they were before the call. -/
theorem attemptSwap_reject_preserves_state (g : Grid) (score : Nat)
    (moves : Int) (r1 c1 r2 c2 : Nat) (σ : Nat → Nat) (fuel : Nat)
    (hr1 : r1 < ROWS) (hc1 : c1 < COLS) (hr2 : r2 < ROWS) (hc2 : c2 < COLS)
    (hadj : isAdjacent r1 c1 r2 c2 = true)
    (hnm : findAllMatches (swapData g (r1, c1) (r2, c2)) = []) :
    attemptSwap g score moves r1 c1 r2 c2 σ fuel = some (g, score, moves) := by
  simp only [attemptSwap, hnm, if_pos, swapData_swapData]

theorem attemptSwap_reject_preserves_state_witness :
    isAdjacent 0 0 0 1 = true ∧
    attemptSwap gridA 0 30 0 0 0 1 zeroSrc 5 = some (gridA, 0, 30) :=
  ⟨by decide,
   attemptSwap_reject_preserves_state gridA 0 30 0 0 0 1 zeroSrc 5
     (by decide) (by decide) (by decide) (by decide) (by decide) (by decide)⟩

/-! ### Claim C8 -/

/-- Claim C8: end-condition evaluation yields Won when score is at least
2000 regardless of the moves remaining, Lost when score is below 2000 and
moves are at most 0, and Playing otherwise; win takes precedence when both
thresholds hold simultaneously. -/
theorem checkEndConditions_spec (score : Nat) (moves : Int) :
    (2000 ≤ score → checkEndConditions score moves = GameStatus.Won) ∧
    (score < 2000 → moves ≤ 0 → checkEndConditions score moves = GameStatus.Lost) ∧
    (score < 2000 → 0 < moves → checkEndConditions score moves = GameStatus.Playing) := by
  refine ⟨fun h => ?_, fun h1 h2 => ?_, fun h1 h2 => ?_⟩ <;>
    simp only [checkEndConditions] <;> split_ifs <;> first | rfl | omega

theorem checkEndConditions_spec_witness :
    checkEndConditions 2000 0 = GameStatus.Won ∧
    checkEndConditions 1999 0 = GameStatus.Lost ∧
    checkEndConditions 1999 30 = GameStatus.Playing :=
  ⟨(checkEndConditions_spec 2000 0).1 (by decide),
   (checkEndConditions_spec 1999 0).2.1 (by decide) (by decide),
   (checkEndConditions_spec 1999 30).2.2 (by decide) (by decide)⟩

/-! ### Claim C9 -/

theorem randomTypeSafeAux_lt (g : Grid) (r c : Nat) (σ : Nat → Nat) :
    ∀ fuel pos, randomTypeSafeAux g r c σ pos fuel < TYPES := by
  intro fuel
  induction fuel with
  | zero => intro pos; exact Nat.mod_lt _ (by decide)
  | succ n ih =>
    intro pos
    simp only [randomTypeSafeAux]
    split
    · exact ih (pos + 1)
    · exact Nat.mod_lt _ (by decide)

theorem randomTypeSafeAux_safe (g : Grid) (r c : Nat) (σ : Nat → Nat) :
    ∀ fuel pos,
      (∃ i, i < fuel ∧ rejects g r c (rand σ (pos + i) TYPES) = false) →
      rejects g r c (randomTypeSafeAux g r c σ pos fuel) = false := by
  intro fuel
  induction fuel with
  | zero => rintro pos ⟨i, hi, -⟩; omega
  | succ n ih =>
    rintro pos ⟨i, hi, hfalse⟩
    simp only [randomTypeSafeAux]
    split
    · rename_i hrej
      refine ih (pos + 1) ⟨i - 1, ?_, ?_⟩
      · rcases Nat.eq_zero_or_pos i with h0 | h0
        · subst h0; simp only [Nat.add_zero] at hfalse
          rw [hfalse] at hrej; cases hrej
        · omega
      · have : pos + 1 + (i - 1) = pos + i := by
          rcases Nat.eq_zero_or_pos i with h0 | h0
          · subst h0; simp only [Nat.add_zero] at hfalse
            rw [hfalse] at hrej; cases hrej
          · omega
        rw [this]; exact hfalse
    · rename_i hrej
      exact Bool.not_eq_true _ ▸ (by simpa using hrej)

/-- Claim C9: for every cell and every random source, the value returned by
randomTypeSafe lies in the interval from 0 to TYPES, and unless all 16
budgeted resample attempts were rejected, the returned value neither
matches the two already-filled cells to its left nor the two above. -/
theorem randomTypeSafe_spec (g : Grid) (r c : Nat) (σ : Nat → Nat) :
    randomTypeSafe g r c σ < TYPES ∧
    ((¬ ∀ i, i < 16 → rejects g r c (rand σ i TYPES) = true) →
      leftPairMatches g r c (randomTypeSafe g r c σ) = false ∧
      upPairMatches g r c (randomTypeSafe g r c σ) = false) := by
  constructor
  · exact randomTypeSafeAux_lt g r c σ 16 0
  · intro hnotall
    have hex : ∃ i, i < 16 ∧ rejects g r c (rand σ i TYPES) = false := by
      push_neg at hnotall
      obtain ⟨i, hi, hne⟩ := hnotall
      exact ⟨i, hi, by simpa using hne⟩
    have h := randomTypeSafeAux_safe g r c σ 16 0 (by
      obtain ⟨i, hi, hf⟩ := hex
      exact ⟨i, hi, by simpa using hf⟩)
    unfold randomTypeSafe
    rw [rejects, Bool.or_eq_false_iff] at h
    exact h

theorem randomTypeSafe_spec_witness :
    randomTypeSafe (fun _ => none) 0 0 zeroSrc < TYPES ∧
    leftPairMatches (fun _ => none) 0 0 (randomTypeSafe (fun _ => none) 0 0 zeroSrc) = false ∧
    upPairMatches (fun _ => none) 0 0 (randomTypeSafe (fun _ => none) 0 0 zeroSrc) = false :=
  ⟨(randomTypeSafe_spec (fun _ => none) 0 0 zeroSrc).1,
   (randomTypeSafe_spec (fun _ => none) 0 0 zeroSrc).2 (by decide)⟩

/-! ### Claim C5 -/

theorem resolveLoopAux_score (σ : Nat → Nat) :
    ∀ fuel g ms score total pos g2 s2 t2 p2,
      resolveLoopAux σ fuel g ms score total pos = some (g2, s2, t2, p2) →
      s2 + 10 * total = score + 10 * t2 ∧ score ≤ s2 ∧ total ≤ t2 := by
  intro fuel
  induction fuel with
  | zero =>
    intro g ms score total pos g2 s2 t2 p2 h
    simp only [resolveLoopAux] at h
    split at h
    · simp only [Option.some.injEq, Prod.mk.injEq] at h
      obtain ⟨-, hs, ht, -⟩ := h
      omega
    · cases h
  | succ n ih =>
    intro g ms score total pos g2 s2 t2 p2 h
    simp only [resolveLoopAux] at h
    split at h
    · simp only [Option.some.injEq, Prod.mk.injEq] at h
      obtain ⟨-, hs, ht, -⟩ := h
      omega
    · have := ih _ _ _ _ _ _ _ _ _ h
      omega

/-- Claim C5: across any terminating run of resolveMatches, the score
increases by exactly 10 times the total removed-tile count it returns, and
the score never decreases. -/
theorem resolveMatches_score_delta (σ : Nat → Nat) (fuel : Nat) (g : Grid)
    (ms : List (List Coord)) (score : Nat) (g2 : Grid) (s2 t2 p2 : Nat)
    (h : resolveMatches σ fuel g ms score = some (g2, s2, t2, p2)) :
    s2 = score + 10 * t2 ∧ score ≤ s2 := by
  have := resolveLoopAux_score σ fuel g ms score 0 0 g2 s2 t2 p2 h
  omega

theorem resolveMatches_score_delta_witness :
    resolveMatches zeroSrc 1 gridA [] 7 = some (gridA, 7, 0, 0) ∧
    7 = 7 + 10 * 0 ∧ 7 ≤ 7 :=
  ⟨rfl, resolveMatches_score_delta zeroSrc 1 gridA [] 7 gridA 7 0 0 rfl⟩

/-! ### Claim C3 -/

/-- Every type stored anywhere in the grid is a legal type id. -/
def typedAll (g : Grid) : Prop :=
  ∀ p t, g p = some t → t < TYPES

theorem typedAll_setG (g : Grid) (p : Coord) (v : Option Nat)
    (hg : typedAll g) (hv : ∀ t, v = some t → t < TYPES) :
    typedAll (setG g p v) := by
  intro q t h
  unfold setG at h
  split at h
  · exact hv t h
  · exact hg q t h

theorem typedAll_remove (rs : List Coord) :
    ∀ g, typedAll g → typedAll (rs.foldl (fun h p => setG h p none) g) := by
  induction rs with
  | nil => intro g hg; exact hg
  | cons a l ih =>
    intro g hg
    exact ih _ (typedAll_setG g a none hg (fun t ht => by cases ht))

theorem typedAll_dropColStep (c : Nat) (s : Grid × Nat) (r : Nat)
    (hg : typedAll s.1) : typedAll (dropColStep c s r).1 := by
  unfold dropColStep
  split
  · split
    · exact typedAll_setG _ _ _
        (typedAll_setG _ _ _ hg (fun t ht => hg _ t ht)) (fun t ht => by cases ht)
    · exact hg
  · exact hg

theorem typedAll_dropColAux (c : Nat) :
    ∀ n s, typedAll s.1 → typedAll (dropColAux c s n).1 := by
  intro n
  induction n with
  | zero => intro s hs; exact hs
  | succ m ih => intro s hs; exact ih _ (typedAll_dropColStep c s m hs)

theorem typedAll_dropTiles (g : Grid) (hg : typedAll g) :
    typedAll (dropTiles g) := by
  unfold dropTiles
  have : ∀ (l : List Nat) (h : Grid), typedAll h →
      typedAll (l.foldl (fun h c => (dropColAux c (h, ROWS - 1) ROWS).1) h) := by
    intro l
    induction l with
    | nil => intro h hh; exact hh
    | cons a t ih =>
      intro h hh
      exact ih _ (typedAll_dropColAux a ROWS (h, ROWS - 1) hh)
  exact this _ g hg

/-- The inner fold of `refillCol` over an arbitrary row list. -/
def refillColGo (σ : Nat → Nat) (c : Nat) (l : List Nat) (s : Grid × Nat) :
    Grid × Nat :=
  l.foldl
    (fun t r =>
      match t.1 (r, c) with
      | none => (setG t.1 (r, c) (some (rand σ t.2 TYPES)), t.2 + 1)
      | some _ => t) s

theorem refillCol_eq_go (σ : Nat → Nat) (c : Nat) (s : Grid × Nat) :
    refillCol σ c s = refillColGo σ c (List.range ROWS) s := rfl

/-- The outer fold of `refillTiles` over an arbitrary column list. -/
def refillGo (σ : Nat → Nat) (l : List Nat) (s : Grid × Nat) : Grid × Nat :=
  l.foldl (fun s c => refillCol σ c s) s

theorem refillTiles_eq_go (σ : Nat → Nat) (g : Grid) (pos : Nat) :
    refillTiles σ g pos = refillGo σ (List.range COLS) (g, pos) := rfl

theorem setG_isSome (g : Grid) (p q : Coord) (v : Option Nat)
    (hv : v.isSome = true) (h : q ≠ p → (g q).isSome = true) :
    ((setG g p v) q).isSome = true := by
  unfold setG
  split
  · exact hv
  · rename_i hne
    exact h hne

theorem refillColGo_preserves (σ : Nat → Nat) (c : Nat) :
    ∀ (l : List Nat) (s : Grid × Nat) p, (s.1 p).isSome = true →
      (((refillColGo σ c l s).1) p).isSome = true := by
  intro l
  induction l with
  | nil => intro s p hp; exact hp
  | cons a tl ih =>
    intro s p hp
    apply ih
    show ((match s.1 (a, c) with
      | none => (setG s.1 (a, c) (some (rand σ s.2 TYPES)), s.2 + 1)
      | some _ => s).1 p).isSome = true
    split
    · exact setG_isSome _ _ _ _ rfl (fun _ => hp)
    · exact hp

theorem refillColGo_fills (σ : Nat → Nat) (c : Nat) :
    ∀ (l : List Nat) (s : Grid × Nat) r, r ∈ l →
      (((refillColGo σ c l s).1) (r, c)).isSome = true := by
  intro l
  induction l with
  | nil => intro s r hr; cases hr
  | cons a tl ih =>
    intro s r hr
    rcases List.mem_cons.mp hr with h | h
    · subst h
      show ((refillColGo σ c tl (match s.1 (r, c) with
        | none => (setG s.1 (r, c) (some (rand σ s.2 TYPES)), s.2 + 1)
        | some _ => s)).1 (r, c)).isSome = true
      apply refillColGo_preserves
      split
      · exact setG_isSome _ _ _ _ rfl (fun hne => absurd rfl hne)
      · rename_i v hv; rw [hv]; rfl
    · exact ih _ r h

theorem typedAll_refillColGo (σ : Nat → Nat) (c : Nat) :
    ∀ (l : List Nat) (s : Grid × Nat), typedAll s.1 →
      typedAll (refillColGo σ c l s).1 := by
  intro l
  induction l with
  | nil => intro s hs; exact hs
  | cons a tl ih =>
    intro s hs
    apply ih
    show typedAll ((match s.1 (a, c) with
      | none => (setG s.1 (a, c) (some (rand σ s.2 TYPES)), s.2 + 1)
      | some _ => s).1)
    split
    · exact typedAll_setG _ _ _ hs
        (fun u hu => by
          cases hu
          exact Nat.mod_lt _ (by decide))
    · exact hs

theorem refillGo_preserves (σ : Nat → Nat) :
    ∀ (l : List Nat) (s : Grid × Nat) p, (s.1 p).isSome = true →
      (((refillGo σ l s).1) p).isSome = true := by
  intro l
  induction l with
  | nil => intro s p hp; exact hp
  | cons b u ih =>
    intro s p hp
    exact ih _ p (refillColGo_preserves σ b (List.range ROWS) s p hp)

theorem typedAll_refillGo (σ : Nat → Nat) :
    ∀ (l : List Nat) (s : Grid × Nat), typedAll s.1 →
      typedAll (refillGo σ l s).1 := by
  intro l
  induction l with
  | nil => intro s hs; exact hs
  | cons b u ih =>
    intro s hs
    exact ih _ (typedAll_refillColGo σ b (List.range ROWS) s hs)

theorem refillGo_fills (σ : Nat → Nat) :
    ∀ (l : List Nat) (s : Grid × Nat) r c, r < ROWS → c ∈ l →
      (((refillGo σ l s).1) (r, c)).isSome = true := by
  intro l
  induction l with
  | nil => intro s r c _ hc; cases hc
  | cons b u ih =>
    intro s r c hr hc
    rcases List.mem_cons.mp hc with h | h
    · subst h
      exact refillGo_preserves σ u _ _
        (refillColGo_fills σ c (List.range ROWS) s r (List.mem_range.mpr hr))
    · exact ih _ r c hr h

/-- After `refillTiles` the board is fully populated with legal type ids. -/
theorem refillTiles_spec (σ : Nat → Nat) (g : Grid) (pos : Nat)
    (hg : typedAll g) :
    gridFull (refillTiles σ g pos).1 ∧ typedAll (refillTiles σ g pos).1 := by
  rw [refillTiles_eq_go]
  constructor
  · intro r hr c hc
    exact refillGo_fills σ (List.range COLS) (g, pos) r c hr (List.mem_range.mpr hc)
  · exact typedAll_refillGo σ (List.range COLS) (g, pos) hg

theorem resolveLoopAux_full (σ : Nat → Nat) :
    ∀ fuel g ms score total pos g2 s2 t2 p2,
      gridFull g → typedAll g →
      resolveLoopAux σ fuel g ms score total pos = some (g2, s2, t2, p2) →
      gridFull g2 ∧ typedAll g2 := by
  intro fuel
  induction fuel with
  | zero =>
    intro g ms score total pos g2 s2 t2 p2 hfull htyped h
    simp only [resolveLoopAux] at h
    split at h
    · simp only [Option.some.injEq, Prod.mk.injEq] at h
      obtain ⟨hg, -, -, -⟩ := h
      exact hg ▸ ⟨hfull, htyped⟩
    · cases h
  | succ n ih =>
    intro g ms score total pos g2 s2 t2 p2 hfull htyped h
    simp only [resolveLoopAux] at h
    split at h
    · simp only [Option.some.injEq, Prod.mk.injEq] at h
      obtain ⟨hg, -, -, -⟩ := h
      exact hg ▸ ⟨hfull, htyped⟩
    · have htyped2 : typedAll (dropTiles
          ((removeSet ms).foldl (fun h p => setG h p none) g)) :=
        typedAll_dropTiles _ (typedAll_remove (removeSet ms) g htyped)
      have hspec := refillTiles_spec σ
        (dropTiles ((removeSet ms).foldl (fun h p => setG h p none) g)) pos htyped2
      exact ih _ _ _ _ _ _ _ _ _ hspec.1 hspec.2 h

/-- Claim C3: after any call to resolveMatches returns (on a fully
populated, legally typed board, as at every call site), every slot of the
board holds a concrete type id below TYPES; no null slot remains. -/
theorem resolveMatches_no_empty_slots (σ : Nat → Nat) (fuel : Nat) (g : Grid)
    (ms : List (List Coord)) (score : Nat) (g2 : Grid) (s2 t2 p2 : Nat)
    (hfull : gridFull g) (htyped : typedAll g)
    (h : resolveMatches σ fuel g ms score = some (g2, s2, t2, p2)) :
    gridFull g2 ∧ typedAll g2 :=
  resolveLoopAux_full σ fuel g ms score 0 0 g2 s2 t2 p2 hfull htyped h

theorem typedAll_gridA : typedAll gridA := by
  intro p t h
  unfold gridA at h
  split at h
  · cases h; exact Nat.mod_lt _ (by decide)
  · cases h

theorem resolveMatches_no_empty_slots_witness :
    gridFull gridA ∧ typedAll gridA :=
  resolveMatches_no_empty_slots zeroSrc 1 gridA [] 0 gridA 0 0 0
    (by decide) typedAll_gridA rfl

/-! ### Claim C6 -/

theorem mem_insertCoord (s : List Coord) (p q : Coord) :
    q ∈ insertCoord s p ↔ q ∈ s ∨ q = p := by
  unfold insertCoord
  split
  · rename_i hp
    constructor
    · exact Or.inl
    · rintro (h | h)
      · exact h
      · exact h ▸ hp
  · simp [List.mem_append]

theorem mem_foldl_insert :
    ∀ (run : List Coord) (s : List Coord) (q : Coord),
      q ∈ run.foldl insertCoord s ↔ q ∈ s ∨ q ∈ run := by
  intro run
  induction run with
  | nil => simp
  | cons a tl ih =>
    intro s q
    rw [List.foldl_cons, ih, mem_insertCoord, List.mem_cons]
    tauto

theorem length_foldl_insert :
    ∀ (run : List Coord) (s : List Coord), run.Nodup →
      (run.foldl insertCoord s).length
        = s.length + (run.filter (fun p => decide (¬ p ∈ s))).length := by
  intro run
  induction run with
  | nil => simp
  | cons a tl ih =>
    intro s hnd
    rcases List.nodup_cons.mp hnd with ⟨ha, htl⟩
    by_cases has : a ∈ s
    · have h1 : insertCoord s a = s := by unfold insertCoord; simp [has]
      rw [List.foldl_cons, h1, ih s htl, List.filter_cons]
      simp [has]
    · have h1 : insertCoord s a = s ++ [a] := by unfold insertCoord; simp [has]
      rw [List.foldl_cons, h1, ih _ htl]
      have hfe : List.filter (fun p => decide (¬ p ∈ s ++ [a])) tl
          = List.filter (fun p => decide (¬ p ∈ s)) tl := by
        apply List.filter_congr
        intro x hx
        have hxa : x ≠ a := fun h => ha (h ▸ hx)
        simp [List.mem_append, hxa]
      rw [hfe, List.filter_cons, if_pos (by simp [has])]
      simp only [List.length_append, List.length_cons, List.length_nil]
      omega

/-- Two Nodup lists see each other with the same number of shared elements. -/
theorem length_filter_mem_comm (a b : List Coord) (ha : a.Nodup) (hb : b.Nodup) :
    (a.filter (fun p => decide (p ∈ b))).length
      = (b.filter (fun p => decide (p ∈ a))).length := by
  have h1 : (a.filter (fun p => decide (p ∈ b))).Nodup := ha.filter _
  have h2 : (b.filter (fun p => decide (p ∈ a))).Nodup := hb.filter _
  have hperm : (a.filter (fun p => decide (p ∈ b))).Perm
      (b.filter (fun p => decide (p ∈ a))) := by
    rw [List.perm_ext_iff_of_nodup h1 h2]
    intro x
    simp only [List.mem_filter, decide_eq_true_eq]
    tauto
  exact hperm.length_eq

/-- Claim C6: when the match list consists of two runs of length 3 sharing
exactly one coordinate (an L-shaped overlap), the removal set of that
resolveMatches iteration has exactly 5 coordinates (the de-duplicated
union, not 6), and the iteration adds exactly 50 to the score carried into
the rest of the loop. -/
theorem resolveMatches_L_overlap (a b : List Coord)
    (ha3 : a.length = 3) (hb3 : b.length = 3) (ha : a.Nodup) (hb : b.Nodup)
    (hshare : (a.filter (fun p => decide (p ∈ b))).length = 1) :
    (removeSet [a, b]).length = 5 ∧
    ∀ σ fuel g score total pos, ∃ g3 pos1,
      resolveLoopAux σ (fuel + 1) g [a, b] score total pos
        = resolveLoopAux σ fuel g3 (findAllMatches g3) (score + 50) (total + 5) pos1 := by
  have hS : removeSet [a, b] = b.foldl insertCoord (a.foldl insertCoord []) := rfl
  have len1 : (a.foldl insertCoord []).length = 3 := by
    rw [length_foldl_insert a [] ha]
    simp [ha3]
  have mem1 : ∀ q, q ∈ a.foldl insertCoord [] ↔ q ∈ a := by
    intro q
    rw [mem_foldl_insert]
    simp
  have hbshare : (b.filter (fun p => decide (p ∈ a))).length = 1 := by
    rw [← length_filter_mem_comm a b ha hb, hshare]
  have hsplit : b.length = (b.filter (fun p => decide (p ∈ a))).length
      + (b.filter (fun x => !(decide (x ∈ a)))).length :=
    List.length_eq_length_filter_add _
  have hnotin : (b.filter (fun p => decide (¬ p ∈ a))).length = 2 := by
    have : (b.filter (fun x => !(decide (x ∈ a)))).length
        = (b.filter (fun p => decide (¬ p ∈ a))).length := by
      apply congrArg
      apply List.filter_congr
      intro x _
      simp
    omega
  have hlen : (removeSet [a, b]).length = 5 := by
    rw [hS, length_foldl_insert b _ hb, len1]
    have : b.filter (fun p => decide (¬ p ∈ a.foldl insertCoord []))
        = b.filter (fun p => decide (¬ p ∈ a)) := by
      apply List.filter_congr
      intro x _
      simp [mem1 x]
    rw [this, hnotin]
  refine ⟨hlen, fun σ fuel g score total pos => ?_⟩
  refine ⟨(refillTiles σ (dropTiles
      ((removeSet [a, b]).foldl (fun h p => setG h p none) g)) pos).1,
    (refillTiles σ (dropTiles
      ((removeSet [a, b]).foldl (fun h p => setG h p none) g)) pos).2, ?_⟩
  simp only [resolveLoopAux]
  rw [if_neg (by simp)]
  rw [hlen]

/-- A horizontal length-3 run used to witness the L-overlap theorem. -/
def runH3 : List Coord := [(0, 0), (0, 1), (0, 2)]

/-- A vertical length-3 run sharing exactly the corner (0,2) with runH3. -/
def runV3 : List Coord := [(0, 2), (1, 2), (2, 2)]

theorem resolveMatches_L_overlap_witness :
    (removeSet [runH3, runV3]).length = 5 ∧
    ∃ g3 pos1,
      resolveLoopAux zeroSrc 1 gridA [runH3, runV3] 0 0 0
        = resolveLoopAux zeroSrc 0 g3 (findAllMatches g3) (0 + 50) (0 + 5) pos1 :=
  ⟨(resolveMatches_L_overlap runH3 runV3 (by decide) (by decide) (by decide)
      (by decide) (by decide)).1,
   (resolveMatches_L_overlap runH3 runV3 (by decide) (by decide) (by decide)
      (by decide) (by decide)).2 zeroSrc 0 gridA 0 0 0⟩

/-! ### Claims C4 and C10: gravity compaction -/

/-- The types of column `c`, read top to bottom. -/
def colList (g : Grid) (c : Nat) : List (Option Nat) :=
  (List.range ROWS).map (fun r => g (r, c))

/-- The non-null types among the topmost `n` slots of column `c`, top to
bottom. -/
def colPrefix (g : Grid) (c n : Nat) : List Nat :=
  ((List.range n).map (fun r => g (r, c))).filterMap id

/-- One column of `dropTiles`, as folded by its outer loop. -/
def dropColumn (g : Grid) (c : Nat) : Grid :=
  (dropColAux c (g, ROWS - 1) ROWS).1

theorem dropTiles_eq_fold (g : Grid) :
    dropTiles g = (List.range COLS).foldl dropColumn g := rfl

theorem colPrefix_succ_none (g : Grid) (c n : Nat) (h : g (n, c) = none) :
    colPrefix g c (n + 1) = colPrefix g c n := by
  unfold colPrefix
  rw [List.range_succ, List.map_append, List.filterMap_append]
  simp [h]

theorem colPrefix_succ_some (g : Grid) (c n v : Nat) (h : g (n, c) = some v) :
    colPrefix g c (n + 1) = colPrefix g c n ++ [v] := by
  unfold colPrefix
  rw [List.range_succ, List.map_append, List.filterMap_append]
  simp [h]

theorem colPrefix_length_le (g : Grid) (c n : Nat) :
    (colPrefix g c n).length ≤ n := by
  unfold colPrefix
  refine le_trans (List.length_filterMap_le _ _) ?_
  simp

theorem colPrefix_congr (g h : Grid) (c n : Nat)
    (he : ∀ r, r < n → g (r, c) = h (r, c)) :
    colPrefix g c n = colPrefix h c n := by
  unfold colPrefix
  congr 1
  apply List.map_congr_left
  intro r hr
  exact he r (List.mem_range.mp hr)

theorem getD_append_lt (l : List Nat) (v : Nat) (j : Nat) (h : j < l.length) :
    (l ++ [v]).getD j 0 = l.getD j 0 :=
  List.getD_append l [v] 0 j h

theorem getD_append_last (l : List Nat) (v : Nat) :
    (l ++ [v]).getD l.length 0 = v := by
  rw [List.getD_append_right l [v] 0 l.length le_rfl]
  simp

/-- Full description of the per-column compaction loop of `dropTiles`.
Starting from a state whose null window is the rows from `n` to `w`, after
processing rows `n-1` down to `0`: the non-null types of those rows sit
just above `w` in their original order, everything in the window below
them is null, rows below `w` and other columns are untouched, and the
write pointer has moved up by one per value placed. -/
theorem dropColAux_spec (c : Nat) :
    ∀ (n : Nat) (g : Grid) (w : Nat), n ≤ w + 1 →
      (∀ r, n ≤ r → r ≤ w → g (r, c) = none) →
      (∀ j, j < (colPrefix g c n).length →
          (dropColAux c (g, w) n).1 (w + 1 - (colPrefix g c n).length + j, c)
            = some ((colPrefix g c n).getD j 0)) ∧
      (∀ r, r < w + 1 - (colPrefix g c n).length →
          (dropColAux c (g, w) n).1 (r, c) = none) ∧
      (∀ r, w < r → (dropColAux c (g, w) n).1 (r, c) = g (r, c)) ∧
      (∀ p : Coord, p.2 ≠ c → (dropColAux c (g, w) n).1 p = g p) ∧
      (dropColAux c (g, w) n).2 = w - (colPrefix g c n).length := by
  intro n
  induction n with
  | zero =>
    intro g w hle hnull
    have hk : colPrefix g c 0 = [] := rfl
    refine ⟨?_, ?_, ?_, ?_, ?_⟩
    · intro j hj; rw [hk] at hj; cases hj
    · intro r hr
      rw [hk] at hr
      simp only [List.length_nil, Nat.sub_zero] at hr
      exact hnull r (Nat.zero_le r) (by omega)
    · intro r _; rfl
    · intro p _; rfl
    · simp [dropColAux, hk]
  | succ n ih =>
    intro g w hle hnull
    have hstep : dropColAux c (g, w) (n + 1)
        = dropColAux c (dropColStep c (g, w) n) n := rfl
    cases hgn : g (n, c) with
    | none =>
      have hs : dropColStep c (g, w) n = (g, w) := by
        simp [dropColStep, hgn]
      have hpre : colPrefix g c (n + 1) = colPrefix g c n :=
        colPrefix_succ_none g c n hgn
      have hnull2 : ∀ r, n ≤ r → r ≤ w → g (r, c) = none := by
        intro r h1 h2
        rcases Nat.eq_or_lt_of_le h1 with h | h
        · exact h ▸ hgn
        · exact hnull r h h2
      have := ih g w (by omega) hnull2
      rw [hstep, hs, hpre]
      exact this
    | some v =>
      by_cases hw : n = w
      · -- the tile is already at the write pointer
        have hs : dropColStep c (g, w) n = (g, w - 1) := by
          unfold dropColStep
          rw [show ((g, w) : Grid × Nat).1 (n, c) = some v from hgn]
          simp [hw]
        have hpre : colPrefix g c (n + 1) = colPrefix g c n ++ [v] :=
          colPrefix_succ_some g c n v hgn
        have hkn : (colPrefix g c n).length ≤ n := colPrefix_length_le g c n
        rcases Nat.eq_zero_or_pos w with hw0 | hwpos
        · -- w = 0, hence n = 0 and the loop is finished
          have hn0 : n = 0 := by omega
          subst hn0
          subst hw0
          have h0 : colPrefix g c 0 = [] := rfl
          rw [hstep, hs, hpre, h0]
          refine ⟨?_, ?_, ?_, ?_, ?_⟩
          · intro j hj
            simp only [List.nil_append, List.length_cons, List.length_nil] at hj
            have hj0 : j = 0 := by omega
            subst hj0
            simpa [dropColAux] using hgn
          · intro r hr
            simp only [List.nil_append, List.length_cons, List.length_nil] at hr
            omega
          · intro r _; rfl
          · intro p _; rfl
          · simp [dropColAux]
        · -- w ≥ 1, recurse with an empty null window
          have hnull2 : ∀ r, n ≤ r → r ≤ w - 1 → g (r, c) = none := by
            intro r h1 h2; omega
          have := ih g (w - 1) (by omega) hnull2
          obtain ⟨i1, i2, i3, i4, i5⟩ := this
          set k := (colPrefix g c n).length with hkdef
          rw [hstep, hs, hpre]
          have hklen : (colPrefix g c n ++ [v]).length = k + 1 := by
            simp [hkdef]
          refine ⟨?_, ?_, ?_, ?_, ?_⟩
          · intro j hj
            rw [hklen] at hj ⊢
            have hpos : w + 1 - (k + 1) = w - 1 + 1 - k := by omega
            rcases Nat.lt_or_ge j k with hjk | hjk
            · rw [hpos]
              rw [getD_append_lt _ _ _ hjk]
              exact i1 j hjk
            · have hjeq : j = k := by omega
              subst hjeq
              have hw2 : w + 1 - (k + 1) + k = w := by omega
              rw [hw2]
              have hgt : w - 1 < w := by omega
              rw [i3 w hgt, ← hw, hgn]
              have hgd : (colPrefix g c n ++ [v]).getD k 0 = v := by
                rw [hkdef]
                exact getD_append_last _ _
              rw [hgd]
          · intro r hr
            rw [hklen] at hr
            exact i2 r (by omega)
          · intro r hr
            rw [i3 r (by omega)]
          · exact i4
          · rw [i5, hklen]
            omega
      · -- the tile moves down to the write pointer
        have hnw : n < w := by omega
        have hs : dropColStep c (g, w) n
            = (setG (setG g (w, c) (g (n, c))) (n, c) none, w - 1) := by
          simp [dropColStep, hgn, hw]
        set g1 := setG (setG g (w, c) (g (n, c))) (n, c) none with hg1
        have hg1n : g1 (n, c) = none := setG_same _ _ _
        have hg1w : g1 (w, c) = some v := by
          rw [hg1, setG_other _ _ _ _ (by
            intro h
            exact hw ((congrArg Prod.fst h).symm)), setG_same, hgn]
        have hg1other : ∀ r, r ≠ n → r ≠ w → g1 (r, c) = g (r, c) := by
          intro r h1 h2
          rw [hg1, setG_other _ _ _ _ (by simp [h1]), setG_other _ _ _ _ (by simp [h2])]
        have hg1col : ∀ p : Coord, p.2 ≠ c → g1 p = g p := by
          intro p hp
          rw [hg1, setG_other _ _ _ _ (by
              intro h; exact hp (by simpa using congrArg Prod.snd h)),
            setG_other _ _ _ _ (by
              intro h; exact hp (by simpa using congrArg Prod.snd h))]
        have hnull2 : ∀ r, n ≤ r → r ≤ w - 1 → g1 (r, c) = none := by
          intro r h1 h2
          rcases Nat.eq_or_lt_of_le h1 with h | h
          · exact h ▸ hg1n
          · rw [hg1other r (by omega) (by omega)]
            exact hnull r (by omega) (by omega)
        have hprefix1 : colPrefix g1 c n = colPrefix g c n :=
          colPrefix_congr g1 g c n (fun r hr => hg1other r (by omega) (by omega))
        have := ih g1 (w - 1) (by omega) hnull2
        obtain ⟨i1, i2, i3, i4, i5⟩ := this
        rw [hprefix1] at i1 i2 i5
        have hpre : colPrefix g c (n + 1) = colPrefix g c n ++ [v] :=
          colPrefix_succ_some g c n v hgn
        set k := (colPrefix g c n).length with hkdef
        rw [hstep, hs, hpre]
        have hklen : (colPrefix g c n ++ [v]).length = k + 1 := by
          simp [hkdef]
        have hkn : k ≤ n := colPrefix_length_le g c n
        refine ⟨?_, ?_, ?_, ?_, ?_⟩
        · intro j hj
          rw [hklen] at hj
          have hpos : w + 1 - (k + 1) = w - 1 + 1 - k := by omega
          rcases Nat.lt_or_ge j k with hjk | hjk
          · rw [hklen, hpos, getD_append_lt _ _ _ hjk]
            exact i1 j hjk
          · have hjeq : j = k := by omega
            subst hjeq
            rw [hklen]
            have hw2 : w + 1 - (k + 1) + k = w := by omega
            rw [hw2]
            have hgt : w - 1 < w := by omega
            rw [i3 w hgt, hg1w]
            have hgd : (colPrefix g c n ++ [v]).getD k 0 = v := by
              rw [hkdef]
              exact getD_append_last _ _
            rw [hgd]
        · intro r hr
          rw [hklen] at hr
          exact i2 r (by omega)
        · intro r hr
          rw [i3 r (by omega)]
          exact hg1other r (by omega) (by omega)
        · intro p hp
          rw [i4 p hp]
          exact hg1col p hp
        · rw [i5, hklen]
          omega

/-- Column `c` after its compaction pass: the nulls first, then the
surviving types in their original top-to-bottom order. -/
theorem dropColumn_col (g : Grid) (c : Nat) :
    colList (dropColumn g c) c
      = List.replicate (ROWS - ((colList g c).filterMap id).length) none
        ++ ((colList g c).filterMap id).map some := by
  have hnull : ∀ r, ROWS ≤ r → r ≤ ROWS - 1 → g (r, c) = none := by
    intro r h1 h2
    have : (8 : Nat) ≤ r := h1
    have : r ≤ 7 := h2
    omega
  obtain ⟨i1, i2, i3, i4, i5⟩ :=
    dropColAux_spec c ROWS g (ROWS - 1) (by omega) hnull
  have hcp : colPrefix g c ROWS = (colList g c).filterMap id := rfl
  rw [hcp] at i1 i2
  have hk : ((colList g c).filterMap id).length ≤ ROWS := by
    have := colPrefix_length_le g c ROWS
    rwa [hcp] at this
  set vs := (colList g c).filterMap id with hvs
  set k := vs.length with hkdef
  apply List.ext_getElem
  · simp only [colList, List.length_map, List.length_range, List.length_append,
      List.length_replicate]
    omega
  · intro i h1 h2
    simp only [colList, List.length_map, List.length_range] at h1
    simp only [colList, List.getElem_map, List.getElem_range]
    rcases Nat.lt_or_ge i (ROWS - k) with hik | hik
    · rw [List.getElem_append_left (by simp [List.length_replicate]; omega),
        List.getElem_replicate]
      apply i2
      omega
    · rw [List.getElem_append_right (by simp [List.length_replicate]; omega)]
      rw [List.getElem_map]
      have hj : i - (ROWS - k) < k := by
        simp only [List.length_replicate] at *
        omega
      have := i1 (i - (ROWS - k)) hj
      have hpos : ROWS - 1 + 1 - k + (i - (ROWS - k)) = i := by omega
      rw [hpos] at this
      rw [show dropColumn g c (i, c) = (dropColAux c (g, ROWS - 1) ROWS).1 (i, c)
          from rfl, this]
      congr 1
      rw [List.getD_eq_getElem vs 0 hj]
      congr 1
      simp [List.length_replicate]

theorem dropColumn_other (g : Grid) (c : Nat) (p : Coord) (hp : p.2 ≠ c) :
    dropColumn g c p = g p := by
  have hnull : ∀ r, ROWS ≤ r → r ≤ ROWS - 1 → g (r, c) = none := by
    intro r h1 h2
    have : (8 : Nat) ≤ r := h1
    have : r ≤ 7 := h2
    omega
  obtain ⟨-, -, -, i4, -⟩ :=
    dropColAux_spec c ROWS g (ROWS - 1) (by omega) hnull
  exact i4 p hp

theorem colList_congr (g1 g2 : Grid) (c : Nat)
    (h : ∀ r, g1 (r, c) = g2 (r, c)) : colList g1 c = colList g2 c := by
  unfold colList
  apply List.map_congr_left
  intro r _
  exact h r

theorem foldl_dropColumn_other :
    ∀ (l : List Nat) (g : Grid) (p : Coord), ¬ p.2 ∈ l →
      (l.foldl dropColumn g) p = g p := by
  intro l
  induction l with
  | nil => intro g p _; rfl
  | cons a tl ih =>
    intro g p hp
    rw [List.foldl_cons, ih _ p (fun h => hp (List.mem_cons.mpr (Or.inr h)))]
    exact dropColumn_other g a p (fun h => hp (by
      rw [h]; exact List.mem_cons_self a tl))

theorem foldl_dropColumn_col :
    ∀ (l : List Nat) (g : Grid) (c : Nat), l.Nodup → c ∈ l →
      colList (l.foldl dropColumn g) c
        = List.replicate (ROWS - ((colList g c).filterMap id).length) none
          ++ ((colList g c).filterMap id).map some := by
  intro l
  induction l with
  | nil => intro g c _ hc; cases hc
  | cons a tl ih =>
    intro g c hnd hc
    rcases List.nodup_cons.mp hnd with ⟨hna, hntl⟩
    rw [List.foldl_cons]
    rcases List.mem_cons.mp hc with h | h
    · subst h
      have hcol : colList (tl.foldl dropColumn (dropColumn g c)) c
          = colList (dropColumn g c) c :=
        colList_congr _ _ c (fun r =>
          foldl_dropColumn_other tl (dropColumn g c) (r, c) hna)
      rw [hcol, dropColumn_col]
    · have hca : c ≠ a := fun he => hna (he ▸ h)
      have hcol : colList (dropColumn g a) c = colList g c :=
        colList_congr _ _ c (fun r => dropColumn_other g a (r, c) hca)
      rw [ih _ c hntl h, hcol]

/-- Claim C4: dropTiles compacts each column independently: afterwards the
non-null types of the column occupy the bottom-most rows in the same
relative order they had before (reading top to bottom), with all null
slots at the top; no reordering occurs among the non-null tiles. -/
theorem dropTiles_compacts_columns (g : Grid) (c : Nat) (hc : c < COLS) :
    colList (dropTiles g) c
      = List.replicate (ROWS - ((colList g c).filterMap id).length) none
        ++ ((colList g c).filterMap id).map some := by
  rw [dropTiles_eq_fold]
  exact foldl_dropColumn_col (List.range COLS) g c (List.nodup_range COLS)
    (List.mem_range.mpr hc)

/-- A concrete board with null slots, used to witness the gravity theorems. -/
def gridB : Grid := fun p =>
  if p.1 < 8 ∧ p.2 < 8 then
    if (p.1 + p.2) % 3 = 0 then none else some ((2 * p.1 + p.2) % 6)
  else none

theorem dropTiles_compacts_columns_witness :
    colList (dropTiles gridB) 0
      = List.replicate (ROWS - ((colList gridB 0).filterMap id).length) none
        ++ ((colList gridB 0).filterMap id).map some :=
  dropTiles_compacts_columns gridB 0 (by decide)

theorem filterMap_id_length_add_countP (l : List (Option Nat)) :
    (l.filterMap id).length + l.countP (fun o => o.isNone) = l.length := by
  induction l with
  | nil => rfl
  | cons o tl ih =>
    cases o <;> simp [List.filterMap_cons, List.countP_cons, *] <;> omega

theorem countP_isNone_replicate (n : Nat) :
    (List.replicate n (none : Option Nat)).countP (fun o => o.isNone) = n := by
  induction n with
  | zero => rfl
  | succ m ih => simp [List.replicate_succ, List.countP_cons, ih]

theorem countP_isNone_map_some (vs : List Nat) :
    (vs.map some).countP (fun o => o.isNone) = 0 := by
  induction vs with
  | nil => rfl
  | cons a tl ih => simp [List.countP_cons, ih]

/-- Claim C10: gravity compaction preserves the multiset of non-null types
of every column (nothing is lost or duplicated), and the number of null
slots per column is unchanged. -/
theorem dropTiles_preserves_multiset (g : Grid) (c : Nat) (hc : c < COLS) :
    ((colList (dropTiles g) c).filterMap id).Perm
      ((colList g c).filterMap id) ∧
    (colList (dropTiles g) c).countP (fun o => o.isNone)
      = (colList g c).countP (fun o => o.isNone) := by
  have hcol : colList (dropTiles g) c
      = List.replicate (ROWS - ((colList g c).filterMap id).length) none
        ++ ((colList g c).filterMap id).map some := by
    rw [dropTiles_eq_fold]
    exact foldl_dropColumn_col (List.range COLS) g c (List.nodup_range COLS)
      (List.mem_range.mpr hc)
  have hk : ((colList g c).filterMap id).length ≤ ROWS := by
    have := colPrefix_length_le g c ROWS
    rwa [show colPrefix g c ROWS = (colList g c).filterMap id from rfl] at this
  have hlen : (colList g c).length = ROWS := by
    simp [colList]
  constructor
  · rw [hcol, List.filterMap_append]
    simp
  · rw [hcol, List.countP_append, countP_isNone_replicate, countP_isNone_map_some]
    have := filterMap_id_length_add_countP (colList g c)
    omega

theorem dropTiles_preserves_multiset_witness :
    ((colList (dropTiles gridB) 0).filterMap id).Perm
      ((colList gridB 0).filterMap id) ∧
    (colList (dropTiles gridB) 0).countP (fun o => o.isNone)
      = (colList gridB 0).countP (fun o => o.isNone) :=
  dropTiles_preserves_multiset gridB 0 (by decide)

/-! ### Claim C2: findAllMatches returns exactly the maximal runs

The scanning loop of `findAllMatches` is characterised against a direct
enumeration of the maximal runs of a line.  Everything is developed for one
abstract line `f : Nat → Option Nat` of length `L` with coordinate
embedding `emb`, then instantiated to rows and columns. -/

/-- First break point at or after `c`: advances while the cell equals `t`
and the line has not ended. -/
def lineRunEndAux (f : Nat → Option Nat) (L : Nat) (t : Option Nat) :
    Nat → Nat → Nat
  | c, 0 => c
  | c, fuel + 1 => if c < L ∧ f c = t then lineRunEndAux f L t (c + 1) fuel else c

/-- End (exclusive) of the maximal equal segment of the line starting at `j`. -/
def lineRunEnd (f : Nat → Option Nat) (L : Nat) (j : Nat) : Nat :=
  lineRunEndAux f L (f j) (j + 1) (L - (j + 1))

/-- The coordinates of the run spanning line positions `a` to `b`
(exclusive). -/
def mkRun (emb : Nat → Coord) (a b : Nat) : List Coord :=
  (List.range' a (b - a)).map emb

/-- The maximal runs of length at least MATCH_MIN of the line, starting at
position `j` or later, in order of their starts. -/
def lineRunsFrom (f : Nat → Option Nat) (L : Nat) (emb : Nat → Coord) :
    Nat → Nat → List (List Coord)
  | _, 0 => []
  | j, fuel + 1 =>
    if j < L then
      (if MATCH_MIN ≤ lineRunEnd f L j - j then [mkRun emb j (lineRunEnd f L j)]
       else [])
        ++ lineRunsFrom f L emb (lineRunEnd f L j) fuel
    else []

/-- Being a maximal run of the line: an equal segment of length at least
MATCH_MIN that cannot be extended on either side. -/
def maxRunLine (f : Nat → Option Nat) (L a b : Nat) : Prop :=
  a < b ∧ b ≤ L ∧ MATCH_MIN ≤ b - a ∧ (∀ x, a ≤ x → x < b → f x = f a) ∧
  (a = 0 ∨ ¬ f (a - 1) = f a) ∧ (b = L ∨ ¬ f b = f a)

theorem lineRunEndAux_ge (f : Nat → Option Nat) (L : Nat) (t : Option Nat) :
    ∀ fuel c, c ≤ lineRunEndAux f L t c fuel := by
  intro fuel
  induction fuel with
  | zero => intro c; exact le_rfl
  | succ n ih =>
    intro c
    simp only [lineRunEndAux]
    split
    · exact le_trans (Nat.le_succ c) (ih (c + 1))
    · exact le_rfl

theorem lineRunEndAux_le (f : Nat → Option Nat) (L : Nat) (t : Option Nat) :
    ∀ fuel c, c ≤ L → lineRunEndAux f L t c fuel ≤ L := by
  intro fuel
  induction fuel with
  | zero => intro c h; exact h
  | succ n ih =>
    intro c h
    simp only [lineRunEndAux]
    split
    · rename_i hcond
      exact ih (c + 1) hcond.1
    · exact h

theorem lineRunEndAux_eq (f : Nat → Option Nat) (L : Nat) (t : Option Nat) :
    ∀ fuel c x, c ≤ x → x < lineRunEndAux f L t c fuel → f x = t := by
  intro fuel
  induction fuel with
  | zero =>
    intro c x h1 h2
    simp only [lineRunEndAux] at h2
    omega
  | succ n ih =>
    intro c x h1 h2
    simp only [lineRunEndAux] at h2
    split at h2
    · rename_i hcond
      rcases Nat.eq_or_lt_of_le h1 with h | h
      · exact h ▸ hcond.2
      · exact ih (c + 1) x h h2
    · omega

theorem lineRunEndAux_break (f : Nat → Option Nat) (L : Nat) (t : Option Nat) :
    ∀ fuel c, c ≤ L → L ≤ c + fuel →
      lineRunEndAux f L t c fuel = L ∨ ¬ f (lineRunEndAux f L t c fuel) = t := by
  intro fuel
  induction fuel with
  | zero =>
    intro c h1 h2
    left
    simp only [lineRunEndAux]
    omega
  | succ n ih =>
    intro c h1 h2
    simp only [lineRunEndAux]
    split
    · rename_i hcond
      exact ih (c + 1) hcond.1 (by omega)
    · rename_i hcond
      rcases Nat.lt_or_ge c L with h | h
      · right
        intro hf
        exact hcond ⟨h, hf⟩
      · left; omega

theorem lineRunEndAux_max (f : Nat → Option Nat) (L : Nat) (t : Option Nat) :
    ∀ fuel c b, b ≤ L → (∀ x, c ≤ x → x < b → f x = t) → b ≤ c + fuel →
      b ≤ lineRunEndAux f L t c fuel := by
  intro fuel
  induction fuel with
  | zero => intro c b _ _ h; simpa [lineRunEndAux] using h
  | succ n ih =>
    intro c b hbL hseg hb
    simp only [lineRunEndAux]
    split
    · rename_i hcond
      refine ih (c + 1) b hbL (fun x h1 h2 => hseg x (by omega) h2) ?_
      omega
    · rename_i hcond
      by_contra hlt
      push_neg at hlt
      exact hcond ⟨by omega, hseg c le_rfl (by omega)⟩

theorem lineRunEnd_gt (f : Nat → Option Nat) (L j : Nat) :
    j < lineRunEnd f L j :=
  lt_of_lt_of_le (Nat.lt_succ_self j) (lineRunEndAux_ge f L (f j) _ (j + 1))

theorem lineRunEnd_le (f : Nat → Option Nat) (L j : Nat) (h : j < L) :
    lineRunEnd f L j ≤ L :=
  lineRunEndAux_le f L (f j) _ (j + 1) h

theorem lineRunEnd_eq (f : Nat → Option Nat) (L j : Nat) :
    ∀ x, j ≤ x → x < lineRunEnd f L j → f x = f j := by
  intro x h1 h2
  rcases Nat.eq_or_lt_of_le h1 with h | h
  · rw [← h]
  · exact lineRunEndAux_eq f L (f j) _ (j + 1) x h h2

theorem lineRunEnd_break (f : Nat → Option Nat) (L j : Nat) (h : j < L) :
    lineRunEnd f L j = L ∨ ¬ f (lineRunEnd f L j) = f j :=
  lineRunEndAux_break f L (f j) _ (j + 1) h (by omega)

theorem lineRunEnd_max (f : Nat → Option Nat) (L j b : Nat) (hbL : b ≤ L)
    (hseg : ∀ x, j ≤ x → x < b → f x = f j) :
    b ≤ lineRunEnd f L j := by
  rcases le_or_lt b (j + 1) with h | h
  · exact le_trans h (lineRunEnd_gt f L j)
  · exact lineRunEndAux_max f L (f j) _ (j + 1) b hbL
      (fun x h1 h2 => hseg x (by omega) h2) (by omega)

theorem lineRunsFrom_ge (f : Nat → Option Nat) (L : Nat) (emb : Nat → Coord)
    (fuel j : Nat) (h : L ≤ j) : lineRunsFrom f L emb j fuel = [] := by
  cases fuel with
  | zero => rfl
  | succ n =>
    simp only [lineRunsFrom]
    rw [if_neg (by omega)]

theorem lineRunsFrom_stable (f : Nat → Option Nat) (L : Nat)
    (emb : Nat → Coord) :
    ∀ fuel1 fuel2 j, L - j ≤ fuel1 → L - j ≤ fuel2 →
      lineRunsFrom f L emb j fuel1 = lineRunsFrom f L emb j fuel2 := by
  intro fuel1
  induction fuel1 with
  | zero =>
    intro fuel2 j h1 h2
    rw [lineRunsFrom_ge f L emb fuel2 j (by omega)]
    rfl
  | succ n ih =>
    intro fuel2 j h1 h2
    rcases Nat.lt_or_ge j L with hjL | hjL
    · cases fuel2 with
      | zero => omega
      | succ m =>
        simp only [lineRunsFrom]
        rw [if_pos hjL, if_pos hjL]
        congr 1
        have he := lineRunEnd_gt f L j
        exact ih m (lineRunEnd f L j) (by omega) (by omega)
    · rw [lineRunsFrom_ge f L emb (n + 1) j hjL,
        lineRunsFrom_ge f L emb fuel2 j hjL]

theorem map_range_add_one (n : Nat) :
    (List.range n).map (· + 1) = List.range' 1 n := by
  rw [List.range_eq_range']
  have h := List.map_add_range' 1 0 n 1
  rw [show (1 + 0) = 1 from rfl] at h
  rw [← h]
  apply List.map_congr_left
  intro x _
  omega

theorem mkRun_headD (emb : Nat → Coord) (j c : Nat) (h : j < c) :
    (mkRun emb j c).headD (emb 0) = emb j := by
  unfold mkRun
  rw [show c - j = (c - j - 1) + 1 from by omega, List.range'_succ]
  rfl

theorem mkRun_length (emb : Nat → Coord) (j c : Nat) :
    (mkRun emb j c).length = c - j := by
  simp [mkRun]

theorem mkRun_snoc (emb : Nat → Coord) (j c : Nat) (h : j ≤ c) :
    mkRun emb j c ++ [emb c] = mkRun emb j (c + 1) := by
  unfold mkRun
  have h2 : j + 1 * (c - j) = c := by omega
  rw [show c + 1 - j = (c - j) + 1 from by omega, List.range'_concat, h2,
    List.map_append]
  rfl

/-- Evaluation of one `lineStep` when the run head is known. -/
theorem lineStep_eval (f : Nat → Option Nat) (emb : Nat → Coord)
    (proj : Coord → Nat) (L : Nat) (hpe : ∀ i, proj (emb i) = i)
    (run : List Coord) (ms : List (List Coord)) (i j : Nat)
    (hhead : run.headD (emb 0) = emb j) :
    lineStep f emb proj L (run, ms) i
      = if i < L ∧ f i = f j then (run ++ [emb i], ms)
        else ([emb i], if MATCH_MIN ≤ run.length then ms ++ [run] else ms) := by
  unfold lineStep
  rw [show ((run, ms) : List Coord × List (List Coord)).1 = run from rfl,
    show ((run, ms) : List Coord × List (List Coord)).2 = ms from rfl,
    hhead, hpe]

theorem lineRunsFrom_pos (f : Nat → Option Nat) (L : Nat) (emb : Nat → Coord)
    (fuel j : Nat) (h1 : 1 ≤ fuel) (h2 : j < L) :
    lineRunsFrom f L emb j fuel
      = (if MATCH_MIN ≤ lineRunEnd f L j - j
          then [mkRun emb j (lineRunEnd f L j)] else [])
        ++ lineRunsFrom f L emb (lineRunEnd f L j) (fuel - 1) := by
  cases fuel with
  | zero => omega
  | succ n =>
    simp only [lineRunsFrom]
    rw [if_pos h2]
    rfl

/-- The scanning loop, started mid-line with the current run spanning
positions `j` to `c`, emits exactly the maximal runs starting at `j` or
later. -/
theorem lineScan_eq (f : Nat → Option Nat) (emb : Nat → Coord)
    (proj : Coord → Nat) (L : Nat) (hpe : ∀ i, proj (emb i) = i) :
    ∀ (k c j : Nat) (ms : List (List Coord)),
      c + k = L + 1 → 1 ≤ k → j < c → c ≤ L →
      (∀ x, j ≤ x → x < c → f x = f j) →
      (j = 0 ∨ ¬ f (j - 1) = f j) →
      ((List.range' c k).foldl (lineStep f emb proj L) (mkRun emb j c, ms)).2
        = ms ++ lineRunsFrom f L emb j L := by
  intro k
  induction k with
  | zero =>
    intro c j ms h1 h2 h3 h4 h5 h6
    exact absurd h2 (by omega)
  | succ n ih =>
    intro c j ms hck hk hjc hcL hseg hbound
    rw [List.range'_succ, List.foldl_cons,
      lineStep_eval f emb proj L hpe _ ms c j (mkRun_headD emb j c hjc)]
    by_cases hcond : c < L ∧ f c = f j
    · -- the run extends
      rw [if_pos hcond, mkRun_snoc emb j c (by omega)]
      have hn : 1 ≤ n := by omega
      refine ih (c + 1) j ms (by omega) hn (by omega) (by omega) ?_ hbound
      intro x h1 h2
      rcases Nat.lt_or_ge x c with h | h
      · exact hseg x h1 h
      · have : x = c := by omega
        rw [this]
        exact hcond.2
    · -- the run is flushed
      rw [if_neg hcond, mkRun_length]
      rcases Nat.lt_or_ge c L with hcL2 | hcL2
      · -- a type change inside the line
        have hfc : ¬ f c = f j := fun h => hcond ⟨hcL2, h⟩
        have hn : 1 ≤ n := by omega
        have h1 : ([emb c] : List Coord) = mkRun emb c (c + 1) := by
          simp [mkRun]
        rw [h1]
        have hc1 : f (c - 1) = f j := hseg (c - 1) (by omega) (by omega)
        have ihc := ih (c + 1) c
          (if MATCH_MIN ≤ c - j then ms ++ [mkRun emb j c] else ms)
          (by omega) hn (by omega) (by omega)
          (fun x hx1 hx2 => by
            have : x = c := by omega
            rw [this])
          (Or.inr (fun h => hfc (h.symm.trans hc1)))
        rw [ihc]
        have he : lineRunEnd f L j = c := by
          have hge : c ≤ lineRunEnd f L j :=
            lineRunEnd_max f L j c (by omega) hseg
          have hle : lineRunEnd f L j ≤ c := by
            by_contra hlt
            push_neg at hlt
            exact hfc (lineRunEnd_eq f L j c (by omega) hlt)
          omega
        rw [lineRunsFrom_pos f L emb L j (by omega) (by omega), he,
          lineRunsFrom_stable f L emb (L - 1) L c (by omega) (by omega)]
        split <;> simp
      · -- the line ends here: c = L and this was the last iteration
        have hcL3 : c = L := by omega
        have hn0 : n = 0 := by omega
        subst hn0
        show (if MATCH_MIN ≤ c - j then ms ++ [mkRun emb j c] else ms)
          = ms ++ lineRunsFrom f L emb j L
        have he : lineRunEnd f L j = L := by
          have hge : L ≤ lineRunEnd f L j := by
            have := lineRunEnd_max f L j c (by omega) hseg
            omega
          have hle : lineRunEnd f L j ≤ L := lineRunEnd_le f L j (by omega)
          omega
        rw [lineRunsFrom_pos f L emb L j (by omega) (by omega), he,
          lineRunsFrom_ge f L emb (L - 1) L le_rfl, ← hcL3]
        split <;> simp

/-- The horizontal scan of a row is the enumeration of its maximal runs. -/
theorem hScanRow_eq (g : Grid) (r : Nat) :
    hScanRow g r
      = lineRunsFrom (fun c => g (r, c)) COLS (fun c => (r, c)) 0 COLS := by
  have h := lineScan_eq (fun c => g (r, c)) (fun c => (r, c)) Prod.snd COLS
    (fun i => rfl) COLS 1 0 [] (by omega) (by decide) (by omega) (by decide)
    (fun x h1 h2 => by
      have hx : x = 0 := by omega
      rw [hx])
    (Or.inl rfl)
  rw [List.nil_append] at h
  unfold hScanRow
  rw [map_range_add_one COLS]
  exact h

/-- The vertical scan of a column is the enumeration of its maximal runs. -/
theorem vScanCol_eq (g : Grid) (c : Nat) :
    vScanCol g c
      = lineRunsFrom (fun r => g (r, c)) ROWS (fun r => (r, c)) 0 ROWS := by
  have h := lineScan_eq (fun r => g (r, c)) (fun r => (r, c)) Prod.fst ROWS
    (fun i => rfl) ROWS 1 0 [] (by omega) (by decide) (by omega) (by decide)
    (fun x h1 h2 => by
      have hx : x = 0 := by omega
      rw [hx])
    (Or.inl rfl)
  rw [List.nil_append] at h
  unfold vScanCol
  rw [map_range_add_one ROWS]
  exact h

/-- Membership in the run enumeration is exactly being a maximal run
starting at `j` or later. -/
theorem mem_lineRunsFrom (f : Nat → Option Nat) (L : Nat) (emb : Nat → Coord) :
    ∀ (fuel j : Nat), L ≤ j + fuel →
      (j = 0 ∨ L ≤ j ∨ ¬ f (j - 1) = f j) →
      ∀ m, (m ∈ lineRunsFrom f L emb j fuel ↔
        ∃ a b, j ≤ a ∧ maxRunLine f L a b ∧ m = mkRun emb a b) := by
  intro fuel
  induction fuel with
  | zero =>
    intro j hfuel hpre m
    simp only [lineRunsFrom, List.not_mem_nil, false_iff]
    rintro ⟨a, b, hja, ⟨hab, hbL, -, -, -, -⟩, -⟩
    omega
  | succ n ih =>
    intro j hfuel hpre m
    by_cases hjL : j < L
    case neg =>
      rw [lineRunsFrom_ge f L emb (n + 1) j (by omega)]
      simp only [List.not_mem_nil, false_iff]
      rintro ⟨a, b, hja, ⟨hab, hbL, -, -, -, -⟩, -⟩
      omega
    case pos =>
      have hje : j < lineRunEnd f L j := lineRunEnd_gt f L j
      have heL : lineRunEnd f L j ≤ L := lineRunEnd_le f L j hjL
      have heq := lineRunEnd_eq f L j
      have hbrk := lineRunEnd_break f L j hjL
      rw [lineRunsFrom_pos f L emb (n + 1) j (by omega) hjL, List.mem_append]
      have hpre2 : lineRunEnd f L j = 0 ∨ L ≤ lineRunEnd f L j ∨
          ¬ f (lineRunEnd f L j - 1) = f (lineRunEnd f L j) := by
        rcases hbrk with h | h
        · exact Or.inr (Or.inl (by omega))
        · refine Or.inr (Or.inr ?_)
          have h1 : f (lineRunEnd f L j - 1) = f j := heq _ (by omega) (by omega)
          intro h2
          exact h (h2.symm.trans h1)
      rw [show n + 1 - 1 = n from rfl, ih (lineRunEnd f L j) (by omega) hpre2 m]
      constructor
      · rintro (hm | ⟨a, b, hea, hmax, hme⟩)
        · by_cases hlen : MATCH_MIN ≤ lineRunEnd f L j - j
          · rw [if_pos hlen, List.mem_singleton] at hm
            refine ⟨j, lineRunEnd f L j, le_rfl, ?_, hm⟩
            refine ⟨hje, heL, hlen, heq, ?_, hbrk⟩
            rcases hpre with h | h | h
            · exact Or.inl h
            · exact absurd hjL (by omega)
            · exact Or.inr h
          · rw [if_neg hlen] at hm
            cases hm
        · exact ⟨a, b, by omega, hmax, hme⟩
      · rintro ⟨a, b, hja2, hmax, hme⟩
        obtain ⟨hab, hbL, hlen, hseg, hleft, hright⟩ := hmax
        rcases Nat.lt_or_ge a (lineRunEnd f L j) with hae | hae
        · have haj : a = j := by
            by_contra hne
            have haj2 : j < a := by omega
            have h1 : f (a - 1) = f j := heq (a - 1) (by omega) (by omega)
            have h2 : f a = f j := heq a (by omega) (by omega)
            rcases hleft with h | h
            · omega
            · exact h (h1.trans h2.symm)
          subst haj
          have hbe : b = lineRunEnd f L a := by
            have hble : b ≤ lineRunEnd f L a := by
              by_contra hlt
              push_neg at hlt
              have h1 : f (lineRunEnd f L a) = f a := hseg _ (by omega) (by omega)
              rcases hbrk with h | h
              · omega
              · exact h h1
            have hbge : lineRunEnd f L a ≤ b := by
              by_contra hlt
              push_neg at hlt
              have h1 : f b = f a := heq b (by omega) (by omega)
              rcases hright with h | h
              · omega
              · exact h h1
            omega
          subst hbe
          left
          rw [if_pos (by omega), List.mem_singleton]
          exact hme
        · right
          exact ⟨a, b, hae, ⟨hab, hbL, hlen, hseg, hleft, hright⟩, hme⟩

/-- Every enumerated run spans some interval of length at least MATCH_MIN
inside the line. -/
theorem lineRunsFrom_shape (f : Nat → Option Nat) (L : Nat)
    (emb : Nat → Coord) :
    ∀ fuel j m, m ∈ lineRunsFrom f L emb j fuel →
      ∃ a b, j ≤ a ∧ a < b ∧ b ≤ L ∧ MATCH_MIN ≤ b - a ∧ m = mkRun emb a b := by
  intro fuel
  induction fuel with
  | zero =>
    intro j m hm
    simp only [lineRunsFrom, List.not_mem_nil] at hm
  | succ n ih =>
    intro j m hm
    by_cases hjL : j < L
    · rw [lineRunsFrom_pos f L emb (n + 1) j (by omega) hjL] at hm
      rcases List.mem_append.mp hm with h | h
      · by_cases hlen : MATCH_MIN ≤ lineRunEnd f L j - j
        · rw [if_pos hlen, List.mem_singleton] at h
          exact ⟨j, lineRunEnd f L j, le_rfl, lineRunEnd_gt f L j,
            lineRunEnd_le f L j hjL, hlen, h⟩
        · rw [if_neg hlen] at h
          cases h
      · obtain ⟨a, b, h1, h2, h3, h4, h5⟩ := ih (lineRunEnd f L j) m h
        have := lineRunEnd_gt f L j
        exact ⟨a, b, by omega, h2, h3, h4, h5⟩
    · rw [lineRunsFrom_ge f L emb _ j (by omega)] at hm
      cases hm

theorem mkRun_headQ (emb : Nat → Coord) (a b : Nat) (h : a < b) :
    (mkRun emb a b).head? = some (emb a) := by
  unfold mkRun
  rw [show b - a = (b - a - 1) + 1 from by omega, List.range'_succ]
  rfl

theorem mkRun_ne (emb : Nat → Coord) (hinj : ∀ x y, emb x = emb y → x = y)
    (a b a2 b2 : Nat) (h1 : a < b) (h2 : a2 < b2) (hne : a ≠ a2) :
    mkRun emb a b ≠ mkRun emb a2 b2 := by
  intro he
  have hh := congrArg List.head? he
  rw [mkRun_headQ _ _ _ h1, mkRun_headQ _ _ _ h2] at hh
  exact hne (hinj _ _ (Option.some.inj hh))

theorem lineRunsFrom_nodup (f : Nat → Option Nat) (L : Nat)
    (emb : Nat → Coord) (hinj : ∀ x y, emb x = emb y → x = y) :
    ∀ fuel j, (lineRunsFrom f L emb j fuel).Nodup := by
  intro fuel
  induction fuel with
  | zero => intro j; simp [lineRunsFrom]
  | succ n ih =>
    intro j
    by_cases hjL : j < L
    · rw [lineRunsFrom_pos f L emb (n + 1) j (by omega) hjL, List.nodup_append]
      refine ⟨?_, ih _, ?_⟩
      · split
        · exact List.nodup_singleton _
        · exact List.nodup_nil
      · intro x hx hx2
        obtain ⟨a, b, ha, hab, -, -, hx2e⟩ :=
          lineRunsFrom_shape f L emb _ _ x hx2
        by_cases hlen : MATCH_MIN ≤ lineRunEnd f L j - j
        · rw [if_pos hlen, List.mem_singleton] at hx
          have hje := lineRunEnd_gt f L j
          exact mkRun_ne emb hinj j (lineRunEnd f L j) a b hje hab
            (by omega) (hx.symm.trans hx2e)
        · rw [if_neg hlen] at hx
          cases hx
    · rw [lineRunsFrom_ge f L emb _ j (by omega)]
      exact List.nodup_nil

theorem mem_mkRun (emb : Nat → Coord) (a b : Nat) (x : Coord) :
    x ∈ mkRun emb a b ↔ ∃ i, a ≤ i ∧ i < b ∧ x = emb i := by
  unfold mkRun
  rw [List.mem_map]
  constructor
  · rintro ⟨i, hi, rfl⟩
    rw [List.mem_range'] at hi
    obtain ⟨k, hk, rfl⟩ := hi
    exact ⟨a + 1 * k, by omega, by omega, rfl⟩
  · rintro ⟨i, h1, h2, rfl⟩
    exact ⟨i, List.mem_range'.mpr ⟨i - a, by omega, by omega⟩, rfl⟩

/-- Being a maximal horizontal run of the grid of length at least
MATCH_MIN, listed left to right. -/
def isMaxHRun (g : Grid) (m : List Coord) : Prop :=
  ∃ r a b, r < ROWS ∧ maxRunLine (fun c => g (r, c)) COLS a b ∧
    m = mkRun (fun c => (r, c)) a b

/-- Being a maximal vertical run of the grid of length at least MATCH_MIN,
listed top to bottom. -/
def isMaxVRun (g : Grid) (m : List Coord) : Prop :=
  ∃ c a b, c < COLS ∧ maxRunLine (fun r => g (r, c)) ROWS a b ∧
    m = mkRun (fun r => (r, c)) a b

theorem mem_hScanRow (g : Grid) (r : Nat) (m : List Coord) :
    m ∈ hScanRow g r ↔ ∃ a b, maxRunLine (fun c => g (r, c)) COLS a b ∧
      m = mkRun (fun c => (r, c)) a b := by
  rw [hScanRow_eq,
    mem_lineRunsFrom (fun c => g (r, c)) COLS (fun c => (r, c)) COLS 0
      (by omega) (Or.inl rfl) m]
  constructor
  · rintro ⟨a, b, -, h1, h2⟩
    exact ⟨a, b, h1, h2⟩
  · rintro ⟨a, b, h1, h2⟩
    exact ⟨a, b, Nat.zero_le a, h1, h2⟩

theorem mem_vScanCol (g : Grid) (c : Nat) (m : List Coord) :
    m ∈ vScanCol g c ↔ ∃ a b, maxRunLine (fun r => g (r, c)) ROWS a b ∧
      m = mkRun (fun r => (r, c)) a b := by
  rw [vScanCol_eq,
    mem_lineRunsFrom (fun r => g (r, c)) ROWS (fun r => (r, c)) ROWS 0
      (by omega) (Or.inl rfl) m]
  constructor
  · rintro ⟨a, b, -, h1, h2⟩
    exact ⟨a, b, h1, h2⟩
  · rintro ⟨a, b, h1, h2⟩
    exact ⟨a, b, Nat.zero_le a, h1, h2⟩

theorem hScanRow_shape (g : Grid) (r : Nat) (m : List Coord)
    (hm : m ∈ hScanRow g r) :
    ∃ a b, a < b ∧ MATCH_MIN ≤ b - a ∧ m = mkRun (fun c => (r, c)) a b := by
  rw [hScanRow_eq] at hm
  obtain ⟨a, b, -, h2, -, h4, h5⟩ :=
    lineRunsFrom_shape (fun c => g (r, c)) COLS (fun c => (r, c)) COLS 0 m hm
  exact ⟨a, b, h2, h4, h5⟩

theorem vScanCol_shape (g : Grid) (c : Nat) (m : List Coord)
    (hm : m ∈ vScanCol g c) :
    ∃ a b, a < b ∧ MATCH_MIN ≤ b - a ∧ m = mkRun (fun r => (r, c)) a b := by
  rw [vScanCol_eq] at hm
  obtain ⟨a, b, -, h2, -, h4, h5⟩ :=
    lineRunsFrom_shape (fun r => g (r, c)) ROWS (fun r => (r, c)) ROWS 0 m hm
  exact ⟨a, b, h2, h4, h5⟩

theorem hScanRow_nodup (g : Grid) (r : Nat) : (hScanRow g r).Nodup := by
  rw [hScanRow_eq]
  exact lineRunsFrom_nodup (fun c => g (r, c)) COLS (fun c => (r, c))
    (fun x y h => by
      have := congrArg Prod.snd h
      simpa using this) COLS 0

theorem vScanCol_nodup (g : Grid) (c : Nat) : (vScanCol g c).Nodup := by
  rw [vScanCol_eq]
  exact lineRunsFrom_nodup (fun r => g (r, c)) ROWS (fun r => (r, c))
    (fun x y h => by
      have := congrArg Prod.fst h
      simpa using this) ROWS 0

theorem mem_foldl_append (h : Nat → List (List Coord)) :
    ∀ (l : List Nat) (ms0 : List (List Coord)) (x : List Coord),
      (x ∈ l.foldl (fun ms i => ms ++ h i) ms0 ↔
        x ∈ ms0 ∨ ∃ i, i ∈ l ∧ x ∈ h i) := by
  intro l
  induction l with
  | nil => simp
  | cons a tl ih =>
    intro ms0 x
    rw [List.foldl_cons, ih, List.mem_append]
    constructor
    · rintro ((h1 | h1) | ⟨i, hi, hx⟩)
      · exact Or.inl h1
      · exact Or.inr ⟨a, List.mem_cons_self a tl, h1⟩
      · exact Or.inr ⟨i, List.mem_cons.mpr (Or.inr hi), hx⟩
    · rintro (h1 | ⟨i, hi, hx⟩)
      · exact Or.inl (Or.inl h1)
      · rcases List.mem_cons.mp hi with h2 | h2
        · subst h2
          exact Or.inl (Or.inr hx)
        · exact Or.inr ⟨i, h2, hx⟩

theorem nodup_foldl_append (h : Nat → List (List Coord)) :
    ∀ (l : List Nat) (ms0 : List (List Coord)), ms0.Nodup → l.Nodup →
      (∀ i, i ∈ l → (h i).Nodup) →
      (∀ i, i ∈ l → ∀ x, x ∈ h i → ¬ x ∈ ms0) →
      (∀ i j, i ∈ l → j ∈ l → i ≠ j → ∀ x, x ∈ h i → ¬ x ∈ h j) →
      (l.foldl (fun ms i => ms ++ h i) ms0).Nodup := by
  intro l
  induction l with
  | nil =>
    intro ms0 h1 _ _ _ _
    exact h1
  | cons a tl ih =>
    intro ms0 hms0 hnd hih hdis hpair
    rcases List.nodup_cons.mp hnd with ⟨hatl, htl⟩
    rw [List.foldl_cons]
    refine ih (ms0 ++ h a) ?_ htl
      (fun i hi => hih i (List.mem_cons.mpr (Or.inr hi))) ?_ ?_
    · rw [List.nodup_append]
      exact ⟨hms0, hih a (List.mem_cons_self a tl),
        fun x hx hx2 => hdis a (List.mem_cons_self a tl) x hx2 hx⟩
    · intro i hi x hx
      rw [List.mem_append]
      rintro (h1 | h1)
      · exact hdis i (List.mem_cons.mpr (Or.inr hi)) x hx h1
      · exact hpair i a (List.mem_cons.mpr (Or.inr hi))
          (List.mem_cons_self a tl) (fun he => hatl (he ▸ hi)) x hx h1
    · intro i j hi hj hne x hx
      exact hpair i j (List.mem_cons.mpr (Or.inr hi))
        (List.mem_cons.mpr (Or.inr hj)) hne x hx

/-- A horizontal run and a vertical run are never equal as coordinate
lists: the former contains two cells in one row, the latter is confined to
one column. -/
theorem hrun_ne_vrun (r a b c2 a2 b2 : Nat) (h1 : a < b)
    (h2 : MATCH_MIN ≤ b - a) (h3 : a2 < b2) :
    mkRun (fun c => (r, c)) a b ≠ mkRun (fun r2 => (r2, c2)) a2 b2 := by
  intro he
  have hmm : MATCH_MIN = 3 := rfl
  have hm1 : ((r, a) : Coord) ∈ mkRun (fun c => (r, c)) a b :=
    (mem_mkRun _ a b _).mpr ⟨a, le_rfl, by omega, rfl⟩
  have hm2 : ((r, a + 1) : Coord) ∈ mkRun (fun c => (r, c)) a b :=
    (mem_mkRun _ a b _).mpr ⟨a + 1, by omega, by omega, rfl⟩
  rw [he] at hm1 hm2
  obtain ⟨i1, -, -, hi1⟩ := (mem_mkRun _ a2 b2 _).mp hm1
  obtain ⟨i2, -, -, hi2⟩ := (mem_mkRun _ a2 b2 _).mp hm2
  have e1 : a = c2 := congrArg Prod.snd hi1
  have e2 : a + 1 = c2 := congrArg Prod.snd hi2
  omega

/-- Claim C2: on a fully populated grid, findAllMatches returns exactly the
maximal horizontal and vertical runs of equal-typed contiguous cells of
length at least MATCH_MIN; each such maximal run appears exactly once at
its full length, and nothing else is returned. -/
theorem findAllMatches_exact (g : Grid) (hfull : gridFull g) :
    (∀ m, m ∈ findAllMatches g ↔ (isMaxHRun g m ∨ isMaxVRun g m)) ∧
    (findAllMatches g).Nodup := by
  have hmemH : ∀ m, m ∈ (List.range ROWS).foldl
      (fun ms r => ms ++ hScanRow g r) [] ↔ isMaxHRun g m := by
    intro m
    rw [mem_foldl_append (hScanRow g) (List.range ROWS) [] m]
    constructor
    · rintro (h | ⟨r, hr, hm⟩)
      · cases h
      · obtain ⟨a, b, h1, h2⟩ := (mem_hScanRow g r m).mp hm
        exact ⟨r, a, b, List.mem_range.mp hr, h1, h2⟩
    · rintro ⟨r, a, b, hr, h1, h2⟩
      exact Or.inr ⟨r, List.mem_range.mpr hr, (mem_hScanRow g r m).mpr ⟨a, b, h1, h2⟩⟩
  constructor
  · intro m
    unfold findAllMatches
    rw [mem_foldl_append (vScanCol g) (List.range COLS) _ m]
    constructor
    · rintro (h | ⟨c, hc, hm⟩)
      · exact Or.inl ((hmemH m).mp h)
      · obtain ⟨a, b, h1, h2⟩ := (mem_vScanCol g c m).mp hm
        exact Or.inr ⟨c, a, b, List.mem_range.mp hc, h1, h2⟩
    · rintro (h | ⟨c, a, b, hc, h1, h2⟩)
      · exact Or.inl ((hmemH m).mpr h)
      · exact Or.inr ⟨c, List.mem_range.mpr hc,
          (mem_vScanCol g c m).mpr ⟨a, b, h1, h2⟩⟩
  · unfold findAllMatches
    have hHnodup : ((List.range ROWS).foldl
        (fun ms r => ms ++ hScanRow g r) []).Nodup := by
      refine nodup_foldl_append (hScanRow g) (List.range ROWS) []
        List.nodup_nil (List.nodup_range ROWS)
        (fun r _ => hScanRow_nodup g r)
        (fun r _ x _ h => by cases h) ?_
      intro r r2 _ _ hne x hx hx2
      obtain ⟨a, b, h1, -, h3⟩ := hScanRow_shape g r x hx
      obtain ⟨a2, b2, h4, -, h6⟩ := hScanRow_shape g r2 x hx2
      have hh := (h3.symm.trans h6)
      have hq1 := congrArg List.head? hh
      rw [mkRun_headQ _ _ _ h1, mkRun_headQ _ _ _ h4] at hq1
      exact hne (congrArg Prod.fst (Option.some.inj hq1))
    refine nodup_foldl_append (vScanCol g) (List.range COLS) _
      hHnodup (List.nodup_range COLS)
      (fun c _ => vScanCol_nodup g c) ?_ ?_
    · intro c _ x hx hmem
      rw [mem_foldl_append (hScanRow g) (List.range ROWS) [] x] at hmem
      rcases hmem with h | ⟨r, -, hr⟩
      · cases h
      · obtain ⟨a, b, h1, h2, h3⟩ := hScanRow_shape g r x hr
        obtain ⟨a2, b2, h4, -, h6⟩ := vScanCol_shape g c x hx
        exact hrun_ne_vrun r a b c a2 b2 h1 h2 h4 (h3.symm.trans h6)
    · intro c c2 _ _ hne x hx hx2
      obtain ⟨a, b, h1, -, h3⟩ := vScanCol_shape g c x hx
      obtain ⟨a2, b2, h4, -, h6⟩ := vScanCol_shape g c2 x hx2
      have hh := (h3.symm.trans h6)
      have hq1 := congrArg List.head? hh
      rw [mkRun_headQ _ _ _ h1, mkRun_headQ _ _ _ h4] at hq1
      exact hne (congrArg Prod.snd (Option.some.inj hq1))

theorem findAllMatches_exact_witness :
    gridFull gridA ∧
    ((∀ m, m ∈ findAllMatches gridA ↔ (isMaxHRun gridA m ∨ isMaxVRun gridA m)) ∧
      (findAllMatches gridA).Nodup) :=
  ⟨by decide, findAllMatches_exact gridA (by decide)⟩

end JewelsCrusher
